import Mathlib

/-!
Verification of the ESP_sample_sleep_project firmware core: the flash log
store with its boot recovery scan (src/main/ESP_sample_sleep_project.c) and
the two UART command framers (src/unnamed/part_000 dual-terminator variant,
src/components/uart_handler/src/uart_handler.c single-terminator variant).

The flash partition is modelled at log-entry granularity: the log region
starting at byte offset LOG_START is a map from entry-slot index `i`
(byte offset LOG_START + i * 8) to an 8-byte record {timestamp:u32,
temperature:f32}.  The float payload is carried as its raw 32-bit pattern;
the code never computes with it, it only stores and reads it back.
All driver reads and writes of log entries in the C code happen at exactly
these offsets, so the slot-indexed view loses nothing the claims need.
-/

set_option maxHeartbeats 1000000

namespace ESPLog

/-- Byte offset where the log region starts (`#define LOG_START 4096`). -/
def LOG_START : Nat := 4096

/-- Size in bytes of one erasable flash sector (`const uint32_t sector_size = 4096`). -/
def SECTOR_SIZE : Nat := 4096

/-- Size in bytes of one packed log_entry_t record ({u32 timestamp, f32 temperature}). -/
def ENTRY_SIZE : Nat := 8

/-- Entries per sector, as computed in find_num_entries: sector_size / sizeof(log_entry_t). -/
def ENTRIES_PER_SECTOR : Nat := SECTOR_SIZE / ENTRY_SIZE

/-- The flash-erased sentinel pattern a u32 reads as after a sector erase. -/
def ERASED_TS : Nat := 0xFFFFFFFF

/-- Minimum accepted logging period (`#define MIN_LOGGING_PERIOD_MS 5`). -/
def MIN_LOGGING_PERIOD_MS : Nat := 5

/-- A packed log_entry_t record; `temperature` carries the raw 32-bit float pattern. -/
structure LogEntry where
  timestamp : Nat
  temperature : Nat
deriving DecidableEq, Repr

/-- Content of a fully erased slot: every bit set, so both fields read 0xFFFFFFFF. -/
def erasedEntry : LogEntry := ⟨ERASED_TS, ERASED_TS⟩

/-- The raw partition: its byte size and the content of each log slot.
Slot `i` models the 8 bytes at offset LOG_START + i * ENTRY_SIZE. -/
structure Flash where
  size : Nat
  slot : Nat → LogEntry

/-- Byte offset of log slot `i`. -/
def byteOff (i : Nat) : Nat := LOG_START + i * ENTRY_SIZE

/-- A partition whose log region is fully erased. -/
def erasedFlash (size : Nat) : Flash := ⟨size, fun _ => erasedEntry⟩

/-- esp_partition_erase_range: erases an aligned range of whole sectors,
setting every slot whose bytes lie inside the range to the erased pattern.
Fails (none) when the range is unaligned or runs past the partition end,
as the ESP-IDF driver does. -/
def esp_partition_erase_range (fl : Flash) (offset len : Nat) : Option Flash :=
  if offset % SECTOR_SIZE = 0 ∧ len % SECTOR_SIZE = 0 ∧ offset + len ≤ fl.size then
    some ⟨fl.size, fun i =>
      if offset ≤ byteOff i ∧ byteOff i + ENTRY_SIZE ≤ offset + len then erasedEntry
      else fl.slot i⟩
  else none

/-- esp_partition_write of one log_entry_t at an entry-aligned offset inside the
log region (the only kind of entry write the code performs).  Fails (none) when
the write would run past the partition end. -/
def esp_partition_write_entry (fl : Flash) (offset : Nat) (e : LogEntry) : Option Flash :=
  if offset + ENTRY_SIZE ≤ fl.size then
    some ⟨fl.size, fun i => if byteOff i = offset then e else fl.slot i⟩
  else none

/-- One physical flash mutation, as observed at the driver boundary. -/
inductive FlashEv where
  | eraseRange (offset len : Nat)
  | writeEntry (offset : Nat) (e : LogEntry)
deriving DecidableEq, Repr

/-- Result of one log_data_entry call: error flag, partition afterwards, the
entry counter afterwards, and the successful driver mutations in order. -/
structure AppendOut where
  ok : Bool
  flash : Flash
  num : Nat
  trace : List FlashEv

/-- log_data_entry (ESP_sample_sleep_project.c lines 325-351): compute
entry_offset = LOG_START + s_num_entries * sizeof(log_entry_t); if that offset
is sector-aligned, erase the containing sector first; write the entry; only on
full success increment s_num_entries.  `eraseOk` / `writeOk` model the driver
returning a failure status independent of bounds. -/
def log_data_entry (eraseOk writeOk : Bool) (fl : Flash) (n : Nat) (e : LogEntry) :
    AppendOut :=
  let entry_offset := LOG_START + n * ENTRY_SIZE
  if entry_offset % SECTOR_SIZE = 0 then
    match (if eraseOk then esp_partition_erase_range fl entry_offset SECTOR_SIZE else none) with
    | none => ⟨false, fl, n, []⟩
    | some fl1 =>
      match (if writeOk then esp_partition_write_entry fl1 entry_offset e else none) with
      | none => ⟨false, fl1, n, [FlashEv.eraseRange entry_offset SECTOR_SIZE]⟩
      | some fl2 =>
        ⟨true, fl2, n + 1,
          [FlashEv.eraseRange entry_offset SECTOR_SIZE, FlashEv.writeEntry entry_offset e]⟩
  else
    match (if writeOk then esp_partition_write_entry fl entry_offset e else none) with
    | none => ⟨false, fl, n, []⟩
    | some fl2 => ⟨true, fl2, n + 1, [FlashEv.writeEntry entry_offset e]⟩

/-- First index i with `start ≤ i < start + fuel` satisfying p, scanned upward;
the shape of both linear probe loops in find_num_entries. -/
def findFirstAux (p : Nat → Bool) : Nat → Nat → Option Nat
  | _, 0 => none
  | start, fuel + 1 => if p start then some start else findFirstAux p (start + 1) fuel

/-- First index i < n with p i, scanned upward from 0. -/
def findFirstIdx (p : Nat → Bool) (n : Nat) : Option Nat := findFirstAux p 0 n

/-- find_num_entries (ESP_sample_sleep_project.c lines 56-106): step 1 scans
sectors for the first whose last slot's timestamp reads the erased sentinel
(setting sector_count past the end when none does); a full region returns
total_sectors * entries_per_sector; step 2 linearly scans that sector's slots
for the first erased timestamp (entry_count stays at its initial 0 when none
is found, mirroring the C local). -/
def find_num_entries (fl : Flash) : Nat :=
  let entries_per_sector := ENTRIES_PER_SECTOR
  let total_sectors := (fl.size - LOG_START) / SECTOR_SIZE
  let sector_count :=
    match findFirstIdx
        (fun i =>
          (fl.slot (i * entries_per_sector + (entries_per_sector - 1))).timestamp == ERASED_TS)
        total_sectors with
    | some i => i
    | none => total_sectors
  if total_sectors ≤ sector_count then
    total_sectors * entries_per_sector
  else
    let entry_count :=
      match findFirstIdx
          (fun i => (fl.slot (sector_count * entries_per_sector + i)).timestamp == ERASED_TS)
          entries_per_sector with
      | some i => i
      | none => 0
    sector_count * entries_per_sector + entry_count

/-- Number of log slots inside the whole sectors of the log region, the value
find_num_entries reports for a full region (total_sectors * entries_per_sector). -/
def capacity (size : Nat) : Nat := ((size - LOG_START) / SECTOR_SIZE) * ENTRIES_PER_SECTOR

/-- The `clear [count]` arithmetic (handle_input_command lines 278-304):
an omitted count clears everything, an explicit count is clamped to the
current counter, a resulting count of zero leaves the counter untouched,
otherwise s_num_entries -= count. -/
def handle_clear (n : Nat) (arg : Option Nat) : Nat :=
  let count := match arg with
    | none => n
    | some k => if k > n then n else k
  if count = 0 then n else n - count

/-- Slot indices the `dump [count]` loop reads (handle_input_command lines
253-276): count defaults to s_num_entries and is clamped to it; start_idx is 0
when count covers everything, else s_num_entries - count; the loop then reads
slots start_idx .. s_num_entries - 1. -/
def dump_slots (num : Nat) (arg : Option Nat) : List Nat :=
  let count := match arg with
    | none => num
    | some c => if c > num then num else c
  let start_idx := if count ≥ num then 0 else num - count
  List.range' start_idx (num - start_idx)

/-- The entries the `dump [count]` command prints, in order: each listed slot
is read from flash at offset LOG_START + i * sizeof(log_entry_t). -/
def dump_cmd (fl : Flash) (num : Nat) (arg : Option Nat) : List LogEntry :=
  (dump_slots num arg).map fl.slot

/-- Modelled from the spec (section 4.3 read path), for comparison against the
code's dump_slots: the tail window of the physically written entries, slots
(written - logical) .. written - 1. -/
def spec_tail_window (written logical : Nat) : List Nat :=
  List.range' (written - logical) logical

/-- A store-level operation the main loop can perform on the log region. -/
inductive Op where
  | append (e : LogEntry)
  | clearCmd (arg : Option Nat)
deriving Repr

/-- The mutable store state the main task owns: the partition and s_num_entries. -/
structure StoreSt where
  flash : Flash
  num : Nat

/-- Effect of one operation on the store, with the driver mutations it performs:
append runs log_data_entry (the main loop ignores its error), clear only
rewrites the in-memory counter. -/
def runOp (st : StoreSt) : Op → StoreSt × List FlashEv
  | Op.append e =>
    let r := log_data_entry true true st.flash st.num e
    (⟨r.flash, r.num⟩, r.trace)
  | Op.clearCmd arg => (⟨st.flash, handle_clear st.num arg⟩, [])

/-- Run a list of operations, concatenating the driver mutation traces. -/
def runOps (st : StoreSt) : List Op → StoreSt × List FlashEv
  | [] => (st, [])
  | op :: rest =>
    let r1 := runOp st op
    let r2 := runOps r1.1 rest
    (r2.1, r1.2 ++ r2.2)

/-- Cumulative result of booting with a fully erased log region and appending
entries es 0, es 1, ... in order; allOk records whether every append succeeded. -/
structure RunOut where
  flash : Flash
  num : Nat
  allOk : Bool
  trace : List FlashEv

/-- State after N appends of es 0 .. es (N-1) into an initially fully erased
log region of a partition of the given byte size. -/
def appendN (es : Nat → LogEntry) (size : Nat) : Nat → RunOut
  | 0 => ⟨erasedFlash size, 0, true, []⟩
  | n + 1 =>
    let r := appendN es size n
    let a := log_data_entry true true r.flash r.num (es n)
    ⟨a.flash, a.num, r.allOk && a.ok, r.trace ++ a.trace⟩

/-- True when the trace programs some entry offset twice with no erase covering
that offset in between: the flash-discipline violation a raw NOR partition
forbids (a second program cannot set bits back). `written` accumulates the
offsets currently programmed. -/
def hasDoubleProgramAux (written : List Nat) : List FlashEv → Bool
  | [] => false
  | FlashEv.eraseRange off len :: rest =>
    hasDoubleProgramAux
      (written.filter (fun o => !(decide (off ≤ o ∧ o + ENTRY_SIZE ≤ off + len)))) rest
  | FlashEv.writeEntry off _ :: rest =>
    if off ∈ written then true else hasDoubleProgramAux (off :: written) rest

/-- True when a driver trace programs some entry offset twice without an
intervening erase of it. -/
def hasDoubleProgram (tr : List FlashEv) : Bool := hasDoubleProgramAux [] tr

/-- Settings record stored at partition offset 0 (settings_t). -/
structure Settings where
  magic : Nat
  logging_period_MS : Nat
  state : Nat
  log_level : Nat
deriving DecidableEq, Repr

/-- A mutation of the settings sector at the driver boundary. -/
inductive SettingsOp where
  | eraseRange (offset len : Nat)
  | writeSettings (offset : Nat) (s : Settings)
deriving DecidableEq, Repr

/-- Response the `set period` branch sends back over the transport. -/
inductive PeriodResponse where
  | rejected
  | accepted (ms : Nat)
deriving DecidableEq, Repr

/-- The digit-parsing core of C atoi, as applied to the decimal argument
strings the command grammar uses: fold leading ASCII digits, stop at the
first non-digit. -/
def atoiAux : Nat → List Nat → Nat
  | acc, [] => acc
  | acc, c :: rest =>
    if 48 ≤ c ∧ c ≤ 57 then atoiAux (acc * 10 + (c - 48)) rest else acc

/-- atoi on the bytes after a command keyword. -/
def atoiNat (s : List Nat) : Nat := atoiAux 0 s

/-- The `set period <ms>` branch (handle_input_command lines 217-234):
parse the argument; below MIN_LOGGING_PERIOD_MS send the error text and
return with nothing changed; otherwise update the in-memory record, erase
the settings sector and rewrite it. -/
def handle_set_period (argBytes : List Nat) (st : Settings) :
    Settings × List SettingsOp × PeriodResponse :=
  let period := atoiNat argBytes
  if period < MIN_LOGGING_PERIOD_MS then
    (st, [], PeriodResponse.rejected)
  else
    let st1 : Settings := { st with logging_period_MS := period }
    (st1, [SettingsOp.eraseRange 0 4096, SettingsOp.writeSettings 0 st1],
      PeriodResponse.accepted period)

end ESPLog

namespace ESPUart

/-- Command buffer size (`#define MAX_CMD_LEN 16`). -/
def MAX_CMD_LEN : Nat := 16

/-- uart_handler_echo_char (part_000 lines 19-25): write the byte back to the
transport when it is printable ASCII or CR/LF, else write nothing. -/
def uart_handler_echo_char (c : Nat) : List Nat :=
  if (32 ≤ c ∧ c ≤ 126) ∨ c = 10 ∨ c = 13 then [c] else []

/-- strncpy(dst, src, MAX_CMD_LEN) where src is the accumulation buffer whose
first `content.length` bytes are `content` followed by a written NUL: copy up
to the first NUL, then pad with NULs to MAX_CMD_LEN bytes. -/
def cmdStrOf (content : List Nat) : List Nat :=
  let pre := content.takeWhile (fun b => b != 0)
  pre ++ List.replicate (MAX_CMD_LEN - pre.length) 0

/-- C strlen over the modelled 16-byte str array: bytes before the first NUL. -/
def strlen (s : List Nat) : Nat := (s.takeWhile (fun b => b != 0)).length

/-- command_t: the 16-byte str array and the declared size field. -/
structure CommandT where
  str : List Nat
  size : Nat
deriving DecidableEq, Repr

/-- The command_t both framers enqueue after accumulating `content`:
s_cmd_buf[idx] = NUL; size = idx + 1; strncpy into str. -/
def mkCommand (content : List Nat) : CommandT :=
  ⟨cmdStrOf content, content.length + 1⟩

/-- Framer state of the dual-terminator variant (part_000): the accumulated
bytes s_cmd_buf[0..s_cmd_idx) and the s_cmd_overflow flag. -/
structure DualState where
  buf : List Nat
  ovf : Bool
deriving DecidableEq, Repr

/-- Output of consuming bytes in the dual-terminator framer: the state after,
the bytes echoed to the transport, and the commands enqueued, all in order. -/
structure DualOut where
  state : DualState
  echo : List Nat
  cmds : List CommandT
deriving DecidableEq, Repr

/-- Fresh framer state: empty buffer, no overflow. -/
def dualInit : DualState := ⟨[], false⟩

/-- One byte through the dual-terminator framer loop (part_000 lines 45-82):
CR or LF echoes CRLF and emits the buffer when non-empty and not overflowed;
in overflow a byte is echoed (if printable) and discarded; with room it is
stored and echoed (if printable); the byte that finds the buffer full flips
the overflow flag and is neither stored nor echoed. -/
def dualStep (s : DualState) (c : Nat) : DualOut :=
  if c = 13 ∨ c = 10 then
    let echo := uart_handler_echo_char 13 ++ uart_handler_echo_char 10
    if 0 < s.buf.length ∧ s.ovf = false then ⟨dualInit, echo, [mkCommand s.buf]⟩
    else ⟨dualInit, echo, []⟩
  else if s.ovf then ⟨s, uart_handler_echo_char c, []⟩
  else if s.buf.length < MAX_CMD_LEN - 1 then
    ⟨⟨s.buf ++ [c], false⟩, uart_handler_echo_char c, []⟩
  else ⟨⟨s.buf, true⟩, [], []⟩

/-- Consume a byte list through the dual-terminator framer. -/
def dualRun (s : DualState) : List Nat → DualOut
  | [] => ⟨s, [], []⟩
  | c :: rest =>
    let o1 := dualStep s c
    let o2 := dualRun o1.state rest
    ⟨o2.state, o1.echo ++ o2.echo, o1.cmds ++ o2.cmds⟩

/-- Echo stream the dual-terminator framer produces from a fresh state. -/
def dualEcho (input : List Nat) : List Nat := (dualRun dualInit input).echo

/-- Commands the dual-terminator framer enqueues from a fresh state. -/
def dualCmds (input : List Nat) : List CommandT := (dualRun dualInit input).cmds

/-- The claim's reading of the echo policy, stated at one input: every
printable byte is echoed exactly as often as it arrives (in particular exactly
once each), and the accumulation buffer never holds a non-printable
non-terminator byte. -/
def EchoClaimAt (input : List Nat) : Prop :=
  (∀ b, 32 ≤ b → b ≤ 126 → (dualEcho input).count b = input.count b) ∧
  (∀ b ∈ (dualRun dualInit input).state.buf, (32 ≤ b ∧ b ≤ 126) ∨ b = 10 ∨ b = 13)

/-- Raw driver events the single-terminator framer task consumes. -/
inductive UEvent where
  | data (chunk : List Nat)
  | fifoOvf
  | timeout
deriving Repr

/-- The per-chunk byte loop of the single-terminator framer
(uart_handler.c lines 49-77), returning the buffer after and the commands
enqueued.  INPUT_END_CH is LF; an empty buffer at the terminator just flushes
and continues; emitting a command breaks out of the chunk, discarding its
remaining bytes; a full buffer flushes, resets and breaks likewise. -/
def tChunk (buf : List Nat) : List Nat → List Nat × List CommandT
  | [] => (buf, [])
  | c :: rest =>
    if c = 10 then
      if buf.length = 0 then tChunk buf rest
      else ([], [mkCommand buf])
    else if buf.length < MAX_CMD_LEN - 1 then tChunk (buf ++ [c]) rest
    else ([], [])

/-- One driver event through the single-terminator framer task (lines 32-80):
FIFO overflow or buffer-full flushes and resets; the inactivity timeout
callback (lines 21-30) flushes and resets; a data event runs the byte loop. -/
def tStepEvent (buf : List Nat) : UEvent → List Nat × List CommandT
  | UEvent.data chunk => tChunk buf chunk
  | UEvent.fifoOvf => ([], [])
  | UEvent.timeout => ([], [])

/-- Consume a driver event list through the single-terminator framer. -/
def tRun (buf : List Nat) : List UEvent → List Nat × List CommandT
  | [] => (buf, [])
  | ev :: rest =>
    let r1 := tStepEvent buf ev
    let r2 := tRun r1.1 rest
    (r2.1, r1.2 ++ r2.2)

/-- Commands the single-terminator framer enqueues from a fresh state. -/
def tCmds (evs : List UEvent) : List CommandT := (tRun [] evs).2

/-- True when every data chunk among the events is NUL-free. -/
def NulFreeEvents (evs : List UEvent) : Prop :=
  ∀ ev ∈ evs, ∀ chunk, ev = UEvent.data chunk → ∀ b ∈ chunk, b ≠ 0

end ESPUart

namespace ESPLog

/-- The log region after N in-order appends: slots below N hold the appended
records, every other slot still reads as erased. -/
def ShapedFlash (size N : Nat) (es : Nat → LogEntry) (fl : Flash) : Prop :=
  fl.size = size ∧ ∀ i, fl.slot i = if i < N then es i else erasedEntry

/-- Sample entry stream with distinct ordinary timestamps. -/
def esIdx : Nat → LogEntry := fun i => ⟨i + 10, 0⟩

/-- Entry stream whose records carry the erased sentinel as their timestamp. -/
def esFF : Nat → LogEntry := fun _ => ⟨ERASED_TS, 0⟩

/-- Operation sequence whose final append re-programs a live slot: two appends,
clear of the last entry, then a third append at the rewound cursor. -/
def c4ops : List Op :=
  [Op.append ⟨100, 0⟩, Op.append ⟨200, 0⟩, Op.clearCmd (some 1), Op.append ⟨300, 0⟩]

theorem findFirstAux_eq_none (p : Nat → Bool) :
    ∀ fuel start, (∀ k, start ≤ k → k < start + fuel → p k = false) →
      findFirstAux p start fuel = none := by
  intro fuel
  induction fuel with
  | zero => intro start _; rfl
  | succ m ih =>
    intro start h
    have hs : p start = false := h start le_rfl (by omega)
    simp only [findFirstAux, hs, Bool.false_eq_true, if_false]
    exact ih (start + 1) (fun k hk1 hk2 => h k (by omega) (by omega))

theorem findFirstAux_eq_some (p : Nat → Bool) :
    ∀ fuel start m, start ≤ m → m < start + fuel → p m = true →
      (∀ k, start ≤ k → k < m → p k = false) →
      findFirstAux p start fuel = some m := by
  intro fuel
  induction fuel with
  | zero => intro start m h1 h2 _ _; omega
  | succ f ih =>
    intro start m h1 h2 hm hbelow
    by_cases hs : start = m
    · subst hs
      simp only [findFirstAux, hm, if_true]
    · have hfalse : p start = false := hbelow start le_rfl (by omega)
      simp only [findFirstAux, hfalse, Bool.false_eq_true, if_false]
      exact ih (start + 1) m (by omega) (by omega) hm
        (fun k hk1 hk2 => hbelow k (by omega) hk2)

theorem findFirstIdx_eq_none (p : Nat → Bool) (n : Nat)
    (h : ∀ k, k < n → p k = false) : findFirstIdx p n = none :=
  findFirstAux_eq_none p n 0 (fun k _ hk => h k (by omega))

theorem findFirstIdx_eq_some (p : Nat → Bool) (n m : Nat) (hm : m < n)
    (hp : p m = true) (hbelow : ∀ k, k < m → p k = false) :
    findFirstIdx p n = some m :=
  findFirstAux_eq_some p n 0 m (Nat.zero_le m) (by omega) hp
    (fun k _ hk => hbelow k hk)

theorem capacity_mul_le (size : Nat) (h4 : LOG_START ≤ size) :
    capacity size * ENTRY_SIZE + LOG_START ≤ size := by
  have hdiv : ((size - LOG_START) / SECTOR_SIZE) * SECTOR_SIZE ≤ size - LOG_START :=
    Nat.div_mul_le_self _ _
  simp only [capacity, ENTRIES_PER_SECTOR, SECTOR_SIZE, ENTRY_SIZE, LOG_START] at *
  omega

theorem log_data_entry_shape (size n : Nat) (es : Nat → LogEntry) (fl : Flash)
    (h4 : LOG_START ≤ size) (hn : n < capacity size) (hsh : ShapedFlash size n es fl) :
    (log_data_entry true true fl n (es n)).ok = true ∧
    (log_data_entry true true fl n (es n)).num = n + 1 ∧
    ShapedFlash size (n + 1) es (log_data_entry true true fl n (es n)).flash := by
  obtain ⟨hsz, hslot⟩ := hsh
  have hcap := capacity_mul_le size h4
  have hwb : (LOG_START + n * ENTRY_SIZE) + ENTRY_SIZE ≤ fl.size := by
    simp only [LOG_START, ENTRY_SIZE] at *
    omega
  by_cases halign : (LOG_START + n * ENTRY_SIZE) % SECTOR_SIZE = 0
  · -- sector-aligned append: erase the sector, then write
    have hmod : n % 512 = 0 := by
      simp only [LOG_START, ENTRY_SIZE, SECTOR_SIZE] at halign
      omega
    have hn512 : n + 512 ≤ capacity size := by
      have : capacity size % 512 = 0 := by
        simp only [capacity, ENTRIES_PER_SECTOR, SECTOR_SIZE, ENTRY_SIZE]
        omega
      omega
    have heb : (LOG_START + n * ENTRY_SIZE) + SECTOR_SIZE ≤ fl.size := by
      simp only [LOG_START, ENTRY_SIZE, SECTOR_SIZE] at *
      omega
    have herase : esp_partition_erase_range fl (LOG_START + n * ENTRY_SIZE) SECTOR_SIZE =
        some ⟨fl.size, fun i =>
          if LOG_START + n * ENTRY_SIZE ≤ byteOff i ∧
              byteOff i + ENTRY_SIZE ≤ (LOG_START + n * ENTRY_SIZE) + SECTOR_SIZE
          then erasedEntry else fl.slot i⟩ := by
      rw [esp_partition_erase_range, if_pos ⟨halign, by norm_num [SECTOR_SIZE], heb⟩]
    simp only [log_data_entry, if_pos halign, if_true, herase]
    have hwrite : esp_partition_write_entry
        (⟨fl.size, fun i =>
          if LOG_START + n * ENTRY_SIZE ≤ byteOff i ∧
              byteOff i + ENTRY_SIZE ≤ (LOG_START + n * ENTRY_SIZE) + SECTOR_SIZE
          then erasedEntry else fl.slot i⟩ : Flash)
        (LOG_START + n * ENTRY_SIZE) (es n) =
        some ⟨fl.size, fun i =>
          if byteOff i = LOG_START + n * ENTRY_SIZE then es n
          else if LOG_START + n * ENTRY_SIZE ≤ byteOff i ∧
              byteOff i + ENTRY_SIZE ≤ (LOG_START + n * ENTRY_SIZE) + SECTOR_SIZE
          then erasedEntry else fl.slot i⟩ := by
      rw [esp_partition_write_entry, if_pos hwb]
    simp only [hwrite]
    refine ⟨by trivial, by trivial, hsz, fun i => ?_⟩
    show (if byteOff i = LOG_START + n * ENTRY_SIZE then es n
      else if LOG_START + n * ENTRY_SIZE ≤ byteOff i ∧
          byteOff i + ENTRY_SIZE ≤ (LOG_START + n * ENTRY_SIZE) + SECTOR_SIZE
      then erasedEntry else fl.slot i) = if i < n + 1 then es i else erasedEntry
    rw [hslot i]
    simp only [byteOff, LOG_START, ENTRY_SIZE, SECTOR_SIZE]
    split_ifs with h1 h2 h3 h4' h5 h6 h7 <;> first
      | rfl
      | omega
      | (have : i = n := by omega
         rw [this])
  · -- unaligned append: write into the already-erased slot
    have hwrite : esp_partition_write_entry fl (LOG_START + n * ENTRY_SIZE) (es n) =
        some ⟨fl.size, fun i =>
          if byteOff i = LOG_START + n * ENTRY_SIZE then es n else fl.slot i⟩ := by
      rw [esp_partition_write_entry, if_pos hwb]
    simp only [log_data_entry, if_neg halign, if_true, hwrite]
    refine ⟨by trivial, by trivial, hsz, fun i => ?_⟩
    show (if byteOff i = LOG_START + n * ENTRY_SIZE then es n else fl.slot i) =
      if i < n + 1 then es i else erasedEntry
    rw [hslot i]
    simp only [byteOff, LOG_START, ENTRY_SIZE]
    split_ifs with h1 h2 h3 h4' <;> first
      | rfl
      | omega
      | (have : i = n := by omega
         rw [this])

theorem appendN_shape (es : Nat → LogEntry) (size : Nat) (h4 : LOG_START ≤ size) :
    ∀ N, N ≤ capacity size →
      (appendN es size N).num = N ∧ (appendN es size N).allOk = true ∧
      ShapedFlash size N es (appendN es size N).flash := by
  intro N
  induction N with
  | zero =>
    intro _
    refine ⟨rfl, rfl, rfl, fun i => ?_⟩
    rw [if_neg (by omega)]
    rfl
  | succ n ih =>
    intro h
    obtain ⟨hnum, hok, hsh⟩ := ih (by omega)
    have step := log_data_entry_shape size n es (appendN es size n).flash h4 (by omega) hsh
    simp only [appendN, hnum]
    exact ⟨step.2.1, by simp [hok, step.1], step.2.2⟩

theorem probe_of_shape (size N : Nat) (es : Nat → LogEntry) (fl : Flash)
    (hts : ∀ i, i < N → (es i).timestamp ≠ ERASED_TS)
    (hsh : ShapedFlash size N es fl) :
    ∀ j, ((fl.slot j).timestamp == ERASED_TS) = decide (N ≤ j) := by
  intro j
  rw [hsh.2 j]
  by_cases hj : j < N
  · rw [if_pos hj]
    simp [hts j hj, hj, Nat.not_le.mpr hj]
  · rw [if_neg hj]
    simp [erasedEntry, Nat.not_lt.mp hj]

theorem find_num_entries_eq (fl : Flash) (N : Nat)
    (hprobe : ∀ j, ((fl.slot j).timestamp == ERASED_TS) = decide (N ≤ j))
    (hN : N ≤ ((fl.size - LOG_START) / SECTOR_SIZE) * ENTRIES_PER_SECTOR) :
    find_num_entries fl = N := by
  have heps : ENTRIES_PER_SECTOR = 512 := rfl
  rw [heps] at hN
  simp only [find_num_entries, heps]
  generalize hT : (fl.size - LOG_START) / SECTOR_SIZE = T at hN ⊢
  by_cases hfull : N = T * 512
  · have hnone : findFirstIdx
        (fun i => (fl.slot (i * 512 + (512 - 1))).timestamp == ERASED_TS) T = none := by
      apply findFirstIdx_eq_none
      intro k hk
      rw [hprobe]
      simp only [decide_eq_false_iff_not, Nat.not_le]
      omega
    simp only [hnone, le_refl, if_true]
    omega
  · have hNlt : N < T * 512 := by omega
    obtain ⟨s, r, hNsr, hrlt, _⟩ :
        ∃ s r, N = 512 * s + r ∧ r < 512 ∧ s = N / 512 :=
      ⟨N / 512, N % 512, by omega, by omega, rfl⟩
    have hslt : s < T := by
      rcases Nat.lt_or_ge s T with h | h
      · exact h
      · exact absurd hNlt (by push_neg; calc T * 512 ≤ s * 512 := by omega
          _ ≤ N := by omega)
    have hsome : findFirstIdx
        (fun i => (fl.slot (i * 512 + (512 - 1))).timestamp == ERASED_TS) T = some s := by
      apply findFirstIdx_eq_some _ _ _ hslt
      · rw [hprobe]
        simp only [decide_eq_true_eq]
        omega
      · intro k hk
        rw [hprobe]
        simp only [decide_eq_false_iff_not, Nat.not_le]
        omega
    have hinner : findFirstIdx
        (fun i => (fl.slot (s * 512 + i)).timestamp == ERASED_TS) 512 = some r := by
      apply findFirstIdx_eq_some _ _ _ hrlt
      · rw [hprobe]
        simp only [decide_eq_true_eq]
        omega
      · intro k hk
        rw [hprobe]
        simp only [decide_eq_false_iff_not, Nat.not_le]
        omega
    simp only [hsome, hinner]
    rw [if_neg (by omega)]
    omega

theorem find_num_entries_shaped (size N : Nat) (es : Nat → LogEntry) (fl : Flash)
    (hN : N ≤ capacity size)
    (hts : ∀ i, i < N → (es i).timestamp ≠ ERASED_TS)
    (hsh : ShapedFlash size N es fl) :
    find_num_entries fl = N := by
  apply find_num_entries_eq fl N (probe_of_shape size N es fl hts hsh)
  have hc : capacity size = ((fl.size - LOG_START) / SECTOR_SIZE) * ENTRIES_PER_SECTOR := by
    rw [hsh.1]
    rfl
  omega

theorem map_eq_of_agree {α : Type} (f g : Nat → α) :
    ∀ m, (∀ i, i < m → f i = g i) → (List.range m).map f = (List.range m).map g := by
  intro m
  induction m with
  | zero => intro _; rfl
  | succ n ih =>
    intro h
    rw [List.range_succ, List.map_append, List.map_append,
      ih (fun i hi => h i (by omega))]
    simp [h n (by omega)]

/-- C1 (amended): for every N with 0 ≤ N ≤ capacity, provided no appended
record carries the erased sentinel 0xFFFFFFFF as its timestamp, N appends into
an initially fully erased log region all succeed and a fresh boot-recovery
scan of the resulting partition returns exactly N; the 513-entry scenario on
the 51200-capacity partition is the witness instance. -/
theorem C1_scan_after_appends (size : Nat) (es : Nat → LogEntry) (N : Nat)
    (h4 : LOG_START ≤ size) (hN : N ≤ capacity size)
    (hts : ∀ i, i < N → (es i).timestamp ≠ ERASED_TS) :
    (appendN es size N).allOk = true ∧
    find_num_entries (appendN es size N).flash = N := by
  obtain ⟨hnum, hok, hsh⟩ := appendN_shape es size h4 N hN
  exact ⟨hok, find_num_entries_shaped size N es _ hN hts hsh⟩

/-- C1 witness: entries_per_sector = 512, capacity 51200 (partition size
413696 = 4096 + 100 * 4096), 513 appended entries scan back to exactly 513. -/
theorem C1_scan_after_appends_witness :
    (appendN esIdx 413696 513).allOk = true ∧
    find_num_entries (appendN esIdx 413696 513).flash = 513 :=
  C1_scan_after_appends 413696 esIdx 513 (by decide) (by decide)
    (fun i hi => by simp only [esIdx, ERASED_TS]; omega)

/-- C1 counterexample: one successful append whose record carries timestamp
0xFFFFFFFF makes the fresh scan report 0, not 1, refuting the claim as stated
for arbitrary appended entries. -/
theorem C1_counterexample :
    (appendN esFF 413696 1).allOk = true ∧ (appendN esFF 413696 1).num = 1 ∧
    find_num_entries (appendN esFF 413696 1).flash = 0 ∧
    ¬ find_num_entries (appendN esFF 413696 1).flash = 1 :=
  ⟨by decide, by decide, by decide, by decide⟩

/-- C2 counterexample: three appended entries with timestamps 10, 11, 12, a
trim of one, then a full-range dump: the code reads physical slots 0 and 1
(timestamps 10 and 11), not the tail window slots 1 and 2 (timestamps 11 and
12) the claim prescribes. -/
theorem C2_counterexample :
    dump_cmd (appendN esIdx 8192 3).flash
        (handle_clear (appendN esIdx 8192 3).num (some 1)) none = [⟨10, 0⟩, ⟨11, 0⟩] ∧
    (spec_tail_window 3 2).map (appendN esIdx 8192 3).flash.slot = [⟨11, 0⟩, ⟨12, 0⟩] ∧
    ¬ dump_cmd (appendN esIdx 8192 3).flash
        (handle_clear (appendN esIdx 8192 3).num (some 1)) none =
      (spec_tail_window 3 2).map (appendN esIdx 8192 3).flash.slot :=
  ⟨by decide, by decide, by decide⟩

/-- C2 (amended): the code keeps a single counter, so trim removes the tail of
the log and the logical window is the front: after N appends and a trim of k,
a full-range dump reads exactly physical slots 0 .. N - k - 1 in order, i.e.
the first N - k appended entries. -/
theorem C2_front_window (size : Nat) (es : Nat → LogEntry) (N k : Nat)
    (h4 : LOG_START ≤ size) (hN : N ≤ capacity size) (hk : k ≤ N) :
    dump_slots (handle_clear (appendN es size N).num (some k)) none =
      List.range' 0 (N - k) ∧
    dump_cmd (appendN es size N).flash
        (handle_clear (appendN es size N).num (some k)) none =
      (List.range (N - k)).map es := by
  obtain ⟨hnum, hok, hsh⟩ := appendN_shape es size h4 N hN
  have hclear : handle_clear (appendN es size N).num (some k) = N - k := by
    simp only [handle_clear, hnum]
    split_ifs <;> omega
  have hslots : dump_slots (N - k) none = List.range' 0 (N - k) := by
    simp [dump_slots]
  rw [hclear]
  refine ⟨hslots, ?_⟩
  simp only [dump_cmd, hslots, ← List.range_eq_range']
  exact map_eq_of_agree _ _ (N - k) (fun i hi => by
    rw [hsh.2 i, if_pos (by omega)])

/-- C2 witness: with three entries and a trim of one, the full dump returns
the first two appended entries. -/
theorem C2_front_window_witness :
    dump_slots (handle_clear (appendN esIdx 8192 3).num (some 1)) none =
      List.range' 0 (3 - 1) ∧
    dump_cmd (appendN esIdx 8192 3).flash
        (handle_clear (appendN esIdx 8192 3).num (some 1)) none =
      (List.range (3 - 1)).map esIdx :=
  C2_front_window 8192 esIdx 3 1 (by decide) (by decide) (by decide)

/-- C3: the clear command decreases the (single) entry counter by
min(count, counter), performs no flash mutation, leaves the partition term
untouched, and a fresh boot-recovery scan afterwards still reports the
pre-trim physical count N. -/
theorem C3_trim_in_memory (size : Nat) (es : Nat → LogEntry) (N k : Nat)
    (h4 : LOG_START ≤ size) (hN : N ≤ capacity size)
    (hts : ∀ i, i < N → (es i).timestamp ≠ ERASED_TS) :
    (runOp ⟨(appendN es size N).flash, (appendN es size N).num⟩
        (Op.clearCmd (some k))).1.num = N - min k N ∧
    (runOp ⟨(appendN es size N).flash, (appendN es size N).num⟩
        (Op.clearCmd (some k))).2 = [] ∧
    (runOp ⟨(appendN es size N).flash, (appendN es size N).num⟩
        (Op.clearCmd (some k))).1.flash = (appendN es size N).flash ∧
    find_num_entries
      (runOp ⟨(appendN es size N).flash, (appendN es size N).num⟩
        (Op.clearCmd (some k))).1.flash = N := by
  obtain ⟨hnum, hok, hsh⟩ := appendN_shape es size h4 N hN
  refine ⟨?_, rfl, rfl, ?_⟩
  · simp only [runOp, handle_clear, hnum]
    split_ifs <;> omega
  · exact find_num_entries_shaped size N es _ hN hts hsh

/-- C3 witness: three entries, trim of two: counter drops to 1, no flash
mutation happens, and a fresh scan still reports 3. -/
theorem C3_trim_in_memory_witness :
    (runOp ⟨(appendN esIdx 8192 3).flash, (appendN esIdx 8192 3).num⟩
        (Op.clearCmd (some 2))).1.num = 3 - min 2 3 ∧
    (runOp ⟨(appendN esIdx 8192 3).flash, (appendN esIdx 8192 3).num⟩
        (Op.clearCmd (some 2))).2 = [] ∧
    (runOp ⟨(appendN esIdx 8192 3).flash, (appendN esIdx 8192 3).num⟩
        (Op.clearCmd (some 2))).1.flash = (appendN esIdx 8192 3).flash ∧
    find_num_entries
      (runOp ⟨(appendN esIdx 8192 3).flash, (appendN esIdx 8192 3).num⟩
        (Op.clearCmd (some 2))).1.flash = 3 :=
  C3_trim_in_memory 8192 esIdx 3 2 (by decide) (by decide)
    (fun i hi => by simp only [esIdx, ERASED_TS]; omega)

/-- C4: the trace of append, append, clear 1, append on a fresh region shows
the code programming entry offset 4104 twice with no intervening erase while
sector 0 still holds the valid entry at offset 4096 — the erase-before-write
discipline the claim (and the spec invariant) requires is violated once a
trim rewinds the cursor. -/
theorem C4_double_program_eval :
    (runOps ⟨erasedFlash 413696, 0⟩ c4ops).2 =
      [FlashEv.eraseRange 4096 4096, FlashEv.writeEntry 4096 ⟨100, 0⟩,
       FlashEv.writeEntry 4104 ⟨200, 0⟩, FlashEv.writeEntry 4104 ⟨300, 0⟩] ∧
    hasDoubleProgram (runOps ⟨erasedFlash 413696, 0⟩ c4ops).2 = true ∧
    (runOps ⟨erasedFlash 413696, 0⟩ c4ops).1.num = 2 ∧
    (runOps ⟨erasedFlash 413696, 0⟩ c4ops).1.flash.slot 0 = ⟨100, 0⟩ :=
  ⟨by decide, by decide, by decide, by decide⟩

/-- C5: log_data_entry targets offset LOG_START + n * entry_size; on success
the counter becomes n + 1 and the driver trace is an erase of the containing
sector followed by the write exactly when that offset is sector-aligned, else
the write alone; on any erase or write failure it reports the error and the
counter stays n. -/
theorem C5_append_contract (eraseOk writeOk : Bool) (fl : Flash) (n : Nat) (e : LogEntry) :
    ((log_data_entry eraseOk writeOk fl n e).ok = true →
      (log_data_entry eraseOk writeOk fl n e).num = n + 1 ∧
      (log_data_entry eraseOk writeOk fl n e).trace =
        (if (LOG_START + n * ENTRY_SIZE) % SECTOR_SIZE = 0 then
          [FlashEv.eraseRange (LOG_START + n * ENTRY_SIZE) SECTOR_SIZE,
           FlashEv.writeEntry (LOG_START + n * ENTRY_SIZE) e]
         else [FlashEv.writeEntry (LOG_START + n * ENTRY_SIZE) e])) ∧
    ((log_data_entry eraseOk writeOk fl n e).ok = false →
      (log_data_entry eraseOk writeOk fl n e).num = n) := by
  by_cases halign : (LOG_START + n * ENTRY_SIZE) % SECTOR_SIZE = 0
  · simp only [log_data_entry, if_pos halign]
    cases heo : (if eraseOk then
        esp_partition_erase_range fl (LOG_START + n * ENTRY_SIZE) SECTOR_SIZE else none) with
    | none => simp [heo]
    | some fl1 =>
      cases hwo : (if writeOk then
          esp_partition_write_entry fl1 (LOG_START + n * ENTRY_SIZE) e else none) with
      | none => simp [heo, hwo]
      | some fl2 => simp [heo, hwo, halign]
  · simp only [log_data_entry, if_neg halign]
    cases hwo : (if writeOk then
        esp_partition_write_entry fl (LOG_START + n * ENTRY_SIZE) e else none) with
    | none => simp [hwo]
    | some fl2 => simp [hwo, halign]

/-- C5 witness: a successful aligned append at cursor 0 erases sector 0 first,
writes the entry, and bumps the counter to 1. -/
theorem C5_append_contract_witness :
    (log_data_entry true true (erasedFlash 8192) 0 ⟨5, 7⟩).num = 0 + 1 ∧
    (log_data_entry true true (erasedFlash 8192) 0 ⟨5, 7⟩).trace =
      (if (LOG_START + 0 * ENTRY_SIZE) % SECTOR_SIZE = 0 then
        [FlashEv.eraseRange (LOG_START + 0 * ENTRY_SIZE) SECTOR_SIZE,
         FlashEv.writeEntry (LOG_START + 0 * ENTRY_SIZE) ⟨5, 7⟩]
       else [FlashEv.writeEntry (LOG_START + 0 * ENTRY_SIZE) ⟨5, 7⟩]) :=
  (C5_append_contract true true (erasedFlash 8192) 0 ⟨5, 7⟩).1 (by decide)

/-- C8: a set period command whose parsed value is below the 5 ms minimum is
rejected with an explicit rejection response, and neither the in-memory
settings nor the settings sector on flash are touched (no erase, no write). -/
theorem C8_set_period_reject (argBytes : List Nat) (st : Settings)
    (h : atoiNat argBytes < MIN_LOGGING_PERIOD_MS) :
    handle_set_period argBytes st = (st, [], PeriodResponse.rejected) := by
  simp only [handle_set_period, if_pos h]

/-- C8 witness: the concrete argument "3" (byte 51) parses to 3 < 5 and is
rejected with settings and flash untouched. -/
theorem C8_set_period_reject_witness :
    handle_set_period [51] ⟨3735928559, 5000, 0, 3⟩ =
      (⟨3735928559, 5000, 0, 3⟩, [], PeriodResponse.rejected) :=
  C8_set_period_reject [51] ⟨3735928559, 5000, 0, 3⟩ (by decide)

/-- C10: the boot-recovery scan depends only on the timestamp fields of the
slots (replacing every value field leaves its result unchanged), a committed
record whose timestamp is the erased sentinel is classified as empty (one such
append scans back to 0), and an ordinary timestamp scans back to 1. -/
theorem C10_scan_timestamp_only :
    (∀ (size : Nat) (ts v1 v2 : Nat → Nat),
      find_num_entries ⟨size, fun i => ⟨ts i, v1 i⟩⟩ =
        find_num_entries ⟨size, fun i => ⟨ts i, v2 i⟩⟩) ∧
    (appendN esFF 8192 1).allOk = true ∧
    find_num_entries (appendN esFF 8192 1).flash = 0 ∧
    find_num_entries (appendN esIdx 8192 1).flash = 1 :=
  ⟨fun _ _ _ _ => rfl, by decide, by decide, by decide⟩

end ESPLog

namespace ESPUart

theorem takeWhile_append_all (p : Nat → Bool) :
    ∀ (l l' : List Nat), (∀ b ∈ l, p b = true) →
      (l ++ l').takeWhile p = l ++ l'.takeWhile p := by
  intro l
  induction l with
  | nil => intro l' _; rfl
  | cons a t ih =>
    intro l' h
    have ha : p a = true := h a (by simp)
    simp only [List.cons_append, List.takeWhile_cons, ha, if_true]
    rw [ih l' (fun b hb => h b (by simp [hb]))]

theorem takeWhile_all_eq (p : Nat → Bool) :
    ∀ l : List Nat, (∀ b ∈ l, p b = true) → l.takeWhile p = l := by
  intro l
  induction l with
  | nil => intro _; rfl
  | cons a t ih =>
    intro h
    have ha : p a = true := h a (by simp)
    simp only [List.takeWhile_cons, ha, if_true]
    rw [ih (fun b hb => h b (by simp [hb]))]

theorem takeWhile_length_le (p : Nat → Bool) :
    ∀ l : List Nat, (l.takeWhile p).length ≤ l.length := by
  intro l
  induction l with
  | nil => simp
  | cons a t ih =>
    by_cases ha : p a = true
    · simp only [List.takeWhile_cons, ha, if_true, List.length_cons]
      omega
    · simp only [List.takeWhile_cons, Bool.not_eq_true] at *
      simp [ha]

theorem takeWhile_mem_pred (p : Nat → Bool) :
    ∀ l : List Nat, ∀ b ∈ l.takeWhile p, p b = true := by
  intro l
  induction l with
  | nil => simp
  | cons a t ih =>
    intro b hb
    by_cases ha : p a = true
    · simp only [List.takeWhile_cons, ha, if_true, List.mem_cons] at hb
      rcases hb with rfl | hb
      · exact ha
      · exact ih b hb
    · simp only [List.takeWhile_cons, Bool.not_eq_true] at *
      simp [ha] at hb

theorem takeWhile_replicate_zero :
    ∀ n : Nat, ((List.replicate n (0 : Nat)).takeWhile (fun b => b != 0)) = [] := by
  intro n
  cases n with
  | zero => rfl
  | succ m => simp [List.replicate_succ, List.takeWhile_cons]

theorem getD_append_right_nat :
    ∀ (l l' : List Nat) (j d : Nat), l.length ≤ j →
      (l ++ l').getD j d = l'.getD (j - l.length) d := by
  intro l
  induction l with
  | nil => intro l' j d _; simp
  | cons a t ih =>
    intro l' j d hj
    cases j with
    | zero => simp at hj
    | succ m =>
      simp only [List.cons_append, List.getD_cons_succ, List.length_cons]
      rw [ih l' m d (by simpa using hj)]
      congr 1
      omega

theorem getD_replicate_zero :
    ∀ (n j d : Nat), j < n → (List.replicate n (0 : Nat)).getD j d = 0 := by
  intro n
  induction n with
  | zero => intro j d h; omega
  | succ m ih =>
    intro j d h
    cases j with
    | zero => simp [List.replicate_succ]
    | succ i =>
      simp only [List.replicate_succ, List.getD_cons_succ]
      exact ih i d (by omega)

theorem strlen_cmdStrOf (content : List Nat) :
    strlen (cmdStrOf content) = (content.takeWhile (fun b => b != 0)).length := by
  unfold strlen cmdStrOf
  rw [takeWhile_append_all _ _ _ (takeWhile_mem_pred _ content),
    takeWhile_replicate_zero]
  simp

theorem length_cmdStrOf (content : List Nat) (h : content.length ≤ MAX_CMD_LEN) :
    (cmdStrOf content).length = MAX_CMD_LEN := by
  have hle := takeWhile_length_le (fun b => b != 0) content
  unfold cmdStrOf
  simp only [List.length_append, List.length_replicate]
  have hmax : MAX_CMD_LEN = 16 := rfl
  omega

theorem getD_cmdStrOf_zero (content : List Nat) (j : Nat)
    (hj1 : (content.takeWhile (fun b => b != 0)).length ≤ j) (hj2 : j < MAX_CMD_LEN)
    (h : content.length ≤ MAX_CMD_LEN) :
    (cmdStrOf content).getD j 99 = 0 := by
  have hle := takeWhile_length_le (fun b => b != 0) content
  have hmax : MAX_CMD_LEN = 16 := rfl
  unfold cmdStrOf
  rw [getD_append_right_nat _ _ _ _ hj1, getD_replicate_zero]
  omega

/-- Anatomy of one command both framers can enqueue: the NUL-termination and
size facts that hold for every accumulated content, and the strlen equation
that additionally needs the content to be NUL-free. -/
theorem mkCommand_props (content : List Nat)
    (h1 : 1 ≤ content.length) (h2 : content.length ≤ MAX_CMD_LEN - 1) :
    2 ≤ (mkCommand content).size ∧ (mkCommand content).size ≤ MAX_CMD_LEN ∧
    (mkCommand content).str.length = MAX_CMD_LEN ∧
    (mkCommand content).str.getD ((mkCommand content).size - 1) 99 = 0 ∧
    strlen (mkCommand content).str + 1 ≤ (mkCommand content).size ∧
    ((∀ b ∈ content, b ≠ 0) → (mkCommand content).size = strlen (mkCommand content).str + 1) := by
  have hmax : MAX_CMD_LEN = 16 := rfl
  have hle := takeWhile_length_le (fun b => b != 0) content
  have hstr : (mkCommand content).str = cmdStrOf content := rfl
  have hsize : (mkCommand content).size = content.length + 1 := rfl
  refine ⟨by omega, by omega, ?_, ?_, ?_, ?_⟩
  · rw [hstr]
    exact length_cmdStrOf content (by omega)
  · rw [hstr, hsize]
    simp only [Nat.add_sub_cancel]
    exact getD_cmdStrOf_zero content content.length (by omega) (by omega) (by omega)
  · rw [hstr, hsize, strlen_cmdStrOf]
    omega
  · intro hnul
    rw [hstr, hsize, strlen_cmdStrOf]
    rw [takeWhile_all_eq _ content (fun b hb => by simp [hnul b hb])]

theorem dualStep_buf_sub (s : DualState) (c : Nat) :
    ∀ b ∈ (dualStep s c).state.buf, b ∈ s.buf ∨ b = c := by
  intro b hb
  unfold dualStep at hb
  split_ifs at hb <;> simp_all [dualInit]

theorem dualStep_buf_len (s : DualState) (c : Nat) (h : s.buf.length ≤ MAX_CMD_LEN - 1) :
    (dualStep s c).state.buf.length ≤ MAX_CMD_LEN - 1 := by
  have hmax : MAX_CMD_LEN = 16 := rfl
  unfold dualStep
  split_ifs <;> simp_all [dualInit] <;> omega

theorem dualStep_cmds_cases (s : DualState) (c : Nat) :
    (dualStep s c).cmds = [] ∨
    ((dualStep s c).cmds = [mkCommand s.buf] ∧ 0 < s.buf.length) := by
  unfold dualStep
  split_ifs with h1 h2 <;> simp_all

theorem dualRun_cmds_shape :
    ∀ (input : List Nat) (s : DualState), s.buf.length ≤ MAX_CMD_LEN - 1 →
      ∀ cmd ∈ (dualRun s input).cmds,
        ∃ content, 1 ≤ content.length ∧ content.length ≤ MAX_CMD_LEN - 1 ∧
          cmd = mkCommand content ∧ ∀ b ∈ content, b ∈ s.buf ∨ b ∈ input := by
  intro input
  induction input with
  | nil =>
    intro s _ cmd hcmd
    simp [dualRun] at hcmd
  | cons c rest ih =>
    intro s hs cmd hcmd
    simp only [dualRun, List.mem_append] at hcmd
    rcases hcmd with hcmd | hcmd
    · rcases dualStep_cmds_cases s c with hnone | ⟨hone, hpos⟩
      · rw [hnone] at hcmd
        simp at hcmd
      · rw [hone] at hcmd
        simp only [List.mem_singleton] at hcmd
        exact ⟨s.buf, hpos, hs, hcmd, fun b hb => Or.inl hb⟩
    · obtain ⟨content, h1, h2, h3, hmem⟩ :=
        ih (dualStep s c).state (dualStep_buf_len s c hs) cmd hcmd
      refine ⟨content, h1, h2, h3, fun b hb => ?_⟩
      rcases hmem b hb with hbuf | hrest
      · rcases dualStep_buf_sub s c b hbuf with h | h
        · exact Or.inl h
        · exact Or.inr (by simp [h])
      · exact Or.inr (by simp [hrest])

theorem tChunk_shape :
    ∀ (chunk buf : List Nat), buf.length ≤ MAX_CMD_LEN - 1 →
      (tChunk buf chunk).1.length ≤ MAX_CMD_LEN - 1 ∧
      (∀ b ∈ (tChunk buf chunk).1, b ∈ buf ∨ b ∈ chunk) ∧
      ∀ cmd ∈ (tChunk buf chunk).2,
        ∃ content, 1 ≤ content.length ∧ content.length ≤ MAX_CMD_LEN - 1 ∧
          cmd = mkCommand content ∧ ∀ b ∈ content, b ∈ buf ∨ b ∈ chunk := by
  intro chunk
  induction chunk with
  | nil =>
    intro buf h
    exact ⟨h, fun b hb => Or.inl hb, by simp [tChunk]⟩
  | cons c rest ih =>
    intro buf h
    by_cases hc : c = 10
    · by_cases hb : buf.length = 0
      · have hred : tChunk buf (c :: rest) = tChunk buf rest := by
          simp [tChunk, hc, hb]
        rw [hred]
        obtain ⟨ha, hm, hcmds⟩ := ih buf h
        refine ⟨ha, fun b hb1 => ?_, fun cmd hcmd => ?_⟩
        · rcases hm b hb1 with h' | h'
          · exact Or.inl h'
          · exact Or.inr (by simp [h'])
        · obtain ⟨content, h1, h2, h3, hmem⟩ := hcmds cmd hcmd
          refine ⟨content, h1, h2, h3, fun b hb2 => ?_⟩
          rcases hmem b hb2 with h' | h'
          · exact Or.inl h'
          · exact Or.inr (by simp [h'])
      · have hred : tChunk buf (c :: rest) = ([], [mkCommand buf]) := by
          simp [tChunk, hc, hb]
        rw [hred]
        refine ⟨by simp [MAX_CMD_LEN], by simp, fun cmd hcmd => ?_⟩
        simp only [List.mem_singleton] at hcmd
        exact ⟨buf, by omega, h, hcmd, fun b hb1 => Or.inl hb1⟩
    · by_cases hroom : buf.length < MAX_CMD_LEN - 1
      · have hred : tChunk buf (c :: rest) = tChunk (buf ++ [c]) rest := by
          simp [tChunk, hc, hroom]
        rw [hred]
        obtain ⟨ha, hm, hcmds⟩ := ih (buf ++ [c]) (by simp; omega)
        refine ⟨ha, fun b hb1 => ?_, fun cmd hcmd => ?_⟩
        · rcases hm b hb1 with h' | h'
          · rcases List.mem_append.mp h' with h'' | h''
            · exact Or.inl h''
            · simp only [List.mem_singleton] at h''
              exact Or.inr (by simp [h''])
          · exact Or.inr (by simp [h'])
        · obtain ⟨content, h1, h2, h3, hmem⟩ := hcmds cmd hcmd
          refine ⟨content, h1, h2, h3, fun b hb2 => ?_⟩
          rcases hmem b hb2 with h' | h'
          · rcases List.mem_append.mp h' with h'' | h''
            · exact Or.inl h''
            · simp only [List.mem_singleton] at h''
              exact Or.inr (by simp [h''])
          · exact Or.inr (by simp [h'])
      · have hred : tChunk buf (c :: rest) = ([], []) := by
          simp [tChunk, hc, hroom]
        rw [hred]
        exact ⟨by simp [MAX_CMD_LEN], by simp, by simp⟩

theorem tRun_shape :
    ∀ (evs : List UEvent) (buf : List Nat), buf.length ≤ MAX_CMD_LEN - 1 →
      (tRun buf evs).1.length ≤ MAX_CMD_LEN - 1 ∧
      ∀ cmd ∈ (tRun buf evs).2,
        ∃ content, 1 ≤ content.length ∧ content.length ≤ MAX_CMD_LEN - 1 ∧
          cmd = mkCommand content ∧
          ∀ b ∈ content, b ∈ buf ∨ ∃ chunk, UEvent.data chunk ∈ evs ∧ b ∈ chunk := by
  intro evs
  induction evs with
  | nil =>
    intro buf h
    exact ⟨h, by simp [tRun]⟩
  | cons ev rest ih =>
    intro buf h
    cases ev with
    | data chunk =>
      obtain ⟨ha, hm, hcmds⟩ := tChunk_shape chunk buf h
      obtain ⟨ha2, hcmds2⟩ := ih (tChunk buf chunk).1 ha
      constructor
      · exact ha2
      · intro cmd hcmd
        simp only [tRun, tStepEvent, List.mem_append] at hcmd
        rcases hcmd with hcmd | hcmd
        · obtain ⟨content, h1, h2, h3, hmem⟩ := hcmds cmd hcmd
          refine ⟨content, h1, h2, h3, fun b hb => ?_⟩
          rcases hmem b hb with h' | h'
          · exact Or.inl h'
          · exact Or.inr ⟨chunk, by simp, h'⟩
        · obtain ⟨content, h1, h2, h3, hmem⟩ := hcmds2 cmd hcmd
          refine ⟨content, h1, h2, h3, fun b hb => ?_⟩
          rcases hmem b hb with h' | h'
          · rcases hm b h' with h'' | h''
            · exact Or.inl h''
            · exact Or.inr ⟨chunk, by simp, h''⟩
          · obtain ⟨ch, hch, hbch⟩ := h'
            exact Or.inr ⟨ch, by simp [hch], hbch⟩
    | fifoOvf =>
      obtain ⟨ha2, hcmds2⟩ := ih [] (by simp [MAX_CMD_LEN])
      refine ⟨ha2, fun cmd hcmd => ?_⟩
      simp only [tRun, tStepEvent, List.nil_append] at hcmd
      obtain ⟨content, h1, h2, h3, hmem⟩ := hcmds2 cmd hcmd
      refine ⟨content, h1, h2, h3, fun b hb => ?_⟩
      rcases hmem b hb with h' | h'
      · simp at h'
      · obtain ⟨ch, hch, hbch⟩ := h'
        exact Or.inr ⟨ch, by simp [hch], hbch⟩
    | timeout =>
      obtain ⟨ha2, hcmds2⟩ := ih [] (by simp [MAX_CMD_LEN])
      refine ⟨ha2, fun cmd hcmd => ?_⟩
      simp only [tRun, tStepEvent, List.nil_append] at hcmd
      obtain ⟨content, h1, h2, h3, hmem⟩ := hcmds2 cmd hcmd
      refine ⟨content, h1, h2, h3, fun b hb => ?_⟩
      rcases hmem b hb with h' | h'
      · simp at h'
      · obtain ⟨ch, hch, hbch⟩ := h'
        exact Or.inr ⟨ch, by simp [hch], hbch⟩

theorem dualStep_echo_count_le (s : DualState) (c b : Nat) (hb : 32 ≤ b) :
    ((dualStep s c).echo.count b) ≤ [c].count b := by
  have h13 : ¬(13 = b) := by omega
  have h10 : ¬(10 = b) := by omega
  unfold dualStep uart_handler_echo_char
  split_ifs <;>
    simp_all [List.count_cons, List.count_singleton, List.count_nil, beq_iff_eq] <;>
    omega

theorem dualRun_echo_count_le (b : Nat) (hb1 : 32 ≤ b) :
    ∀ (input : List Nat) (s : DualState),
      ((dualRun s input).echo.count b) ≤ input.count b := by
  intro input
  induction input with
  | nil => intro s; simp [dualRun]
  | cons c rest ih =>
    intro s
    have hstep := dualStep_echo_count_le s c b hb1
    have hrest := ih (dualStep s c).state
    simp only [dualRun, List.count_append, List.count_cons]
    simp only [List.count_singleton] at hstep
    omega

/-- C6 counterexample: feeding one non-printable byte then fifteen letters,
the dual-terminator framer buffers the non-printable byte and swallows the
echo of the sixteenth byte (the overflow boundary), so the letter 0x61 is
echoed only 14 times though it arrived 15 times, refuting the claim's echo
policy as stated. -/
theorem C6_counterexample : ¬ EchoClaimAt (1 :: List.replicate 15 97) := by
  intro h
  exact absurd (h.1 97 (by norm_num) (by norm_num)) (by decide)

/-- C6 (amended): per consumed byte of the dual-terminator framer, a
terminator always echoes the CR LF pair; a printable non-terminator is echoed
exactly once whenever the framer is in overflow or the buffer has room; a
non-printable non-terminator is never echoed; the byte that finds the buffer
full is neither echoed nor stored, it only sets the overflow flag; a byte
consumed with room is stored whether printable or not; consequently over any
input each printable byte value is echoed at most as often as it arrives.
(The single-terminator framer variant echoes nothing at all.) -/
theorem C6_echo_policy :
    (∀ (input : List Nat) (b : Nat), 32 ≤ b →
        (dualEcho input).count b ≤ input.count b) ∧
    (∀ (s : DualState) (c : Nat),
      ((c = 13 ∨ c = 10) → (dualStep s c).echo = [13, 10]) ∧
      (¬(c = 13 ∨ c = 10) → 32 ≤ c → c ≤ 126 →
        (s.ovf = true ∨ s.buf.length < MAX_CMD_LEN - 1) →
        (dualStep s c).echo = [c]) ∧
      (¬(c = 13 ∨ c = 10) → ¬(32 ≤ c ∧ c ≤ 126) → (dualStep s c).echo = []) ∧
      (¬(c = 13 ∨ c = 10) → s.ovf = false → ¬(s.buf.length < MAX_CMD_LEN - 1) →
        (dualStep s c).echo = [] ∧ (dualStep s c).state = ⟨s.buf, true⟩) ∧
      (¬(c = 13 ∨ c = 10) → s.ovf = false → s.buf.length < MAX_CMD_LEN - 1 →
        (dualStep s c).state.buf = s.buf ++ [c])) := by
  constructor
  · intro input b hb
    exact dualRun_echo_count_le b hb input dualInit
  · intro s c
    refine ⟨?_, ?_, ?_, ?_, ?_⟩
    · intro hterm
      simp [dualStep, hterm, uart_handler_echo_char]
      split_ifs <;> rfl
    · intro hterm h1 h2 hroom
      rcases hroom with hovf | hroom
      · simp [dualStep, hterm, hovf, uart_handler_echo_char, h1, h2]
      · unfold dualStep
        rw [if_neg hterm]
        by_cases hovf : s.ovf
        · simp [hovf, uart_handler_echo_char, h1, h2]
        · simp [hovf, hroom, uart_handler_echo_char, h1, h2]
    · intro hterm hnp
      unfold dualStep
      rw [if_neg hterm]
      by_cases hovf : s.ovf
      · simp only [hovf, if_true, uart_handler_echo_char]
        rw [if_neg]
        intro h
        rcases h with h | h | h
        · exact hnp h
        · exact hterm (Or.inr h)
        · exact hterm (Or.inl h)
      · by_cases hroom : s.buf.length < MAX_CMD_LEN - 1
        · simp only [hovf, if_false, hroom, if_true, uart_handler_echo_char,
            Bool.false_eq_true]
          rw [if_neg]
          intro h
          rcases h with h | h | h
          · exact hnp h
          · exact hterm (Or.inr h)
          · exact hterm (Or.inl h)
        · simp [hovf, hroom]
    · intro hterm hovf hfull
      simp [dualStep, hterm, hovf, hfull]
    · intro hterm hovf hroom
      simp [dualStep, hterm, hovf, hroom]

/-- C6 witness: a printable byte consumed with buffer room is echoed exactly
once. -/
theorem C6_echo_policy_witness : (dualStep dualInit 97).echo = [97] :=
  (C6_echo_policy.2 dualInit 97).2.1 (by decide) (by decide) (by decide)
    (Or.inr (by decide))

/-- C7: in both framing policies, every command either framer enqueues has
string length at most MAX_CMD_LEN - 1, so the 16-byte buffer with its NUL
terminator is never exceeded. -/
theorem C7_command_length :
    (∀ input : List Nat, ∀ cmd ∈ dualCmds input, strlen cmd.str ≤ MAX_CMD_LEN - 1) ∧
    (∀ evs : List UEvent, ∀ cmd ∈ tCmds evs, strlen cmd.str ≤ MAX_CMD_LEN - 1) := by
  constructor
  · intro input cmd hc
    obtain ⟨content, h1, h2, rfl, _⟩ :=
      dualRun_cmds_shape input dualInit (by simp [dualInit]) cmd hc
    have hs : strlen (mkCommand content).str =
        (content.takeWhile (fun b => b != 0)).length := strlen_cmdStrOf content
    have hle := takeWhile_length_le (fun b => b != 0) content
    omega
  · intro evs cmd hc
    obtain ⟨content, h1, h2, rfl, _⟩ :=
      (tRun_shape evs [] (by simp [MAX_CMD_LEN])).2 cmd hc
    have hs : strlen (mkCommand content).str =
        (content.takeWhile (fun b => b != 0)).length := strlen_cmdStrOf content
    have hle := takeWhile_length_le (fun b => b != 0) content
    omega

/-- C7 witness: the command framed from bytes hi CR has strlen 2 at most 15. -/
theorem C7_command_length_witness :
    strlen (mkCommand [104, 105]).str ≤ MAX_CMD_LEN - 1 :=
  C7_command_length.1 [104, 105, 13] (mkCommand [104, 105]) (by decide)

/-- C9 counterexample: the dual-terminator framer buffers a NUL input byte
like any other; the command framed from bytes 0x00 0x61 CR has declared size
3 but strlen 0, so size is not strlen + 1. -/
theorem C9_counterexample :
    ¬ ∀ cmd ∈ dualCmds [0, 97, 13], cmd.size = strlen cmd.str + 1 := by
  decide

/-- C9 (amended): every command either framer enqueues is NUL-terminated with
str[size - 1] = 0, has 2 ≤ size ≤ MAX_CMD_LEN and a full 16-byte str array,
and size equals the number of accumulated bytes plus one, which is at least
strlen + 1 and equals strlen + 1 whenever the input carried no NUL byte (a
NUL input byte is accumulated like any other non-terminator, shortening the C
string below the declared size). -/
theorem C9_command_size :
    (∀ input : List Nat, ∀ cmd ∈ dualCmds input,
        2 ≤ cmd.size ∧ cmd.size ≤ MAX_CMD_LEN ∧ cmd.str.length = MAX_CMD_LEN ∧
        cmd.str.getD (cmd.size - 1) 99 = 0 ∧ strlen cmd.str + 1 ≤ cmd.size ∧
        ((∀ b ∈ input, b ≠ 0) → cmd.size = strlen cmd.str + 1)) ∧
    (∀ evs : List UEvent, ∀ cmd ∈ tCmds evs,
        2 ≤ cmd.size ∧ cmd.size ≤ MAX_CMD_LEN ∧ cmd.str.length = MAX_CMD_LEN ∧
        cmd.str.getD (cmd.size - 1) 99 = 0 ∧ strlen cmd.str + 1 ≤ cmd.size ∧
        (NulFreeEvents evs → cmd.size = strlen cmd.str + 1)) := by
  constructor
  · intro input cmd hc
    obtain ⟨content, h1, h2, rfl, hmem⟩ :=
      dualRun_cmds_shape input dualInit (by simp [dualInit]) cmd hc
    obtain ⟨p1, p2, p3, p4, p5, p6⟩ := mkCommand_props content h1 h2
    refine ⟨p1, p2, p3, p4, p5, fun hnul => ?_⟩
    refine p6 (fun b hb => ?_)
    rcases hmem b hb with h' | h'
    · simp [dualInit] at h'
    · exact hnul b h'
  · intro evs cmd hc
    obtain ⟨content, h1, h2, rfl, hmem⟩ :=
      (tRun_shape evs [] (by simp [MAX_CMD_LEN])).2 cmd hc
    obtain ⟨p1, p2, p3, p4, p5, p6⟩ := mkCommand_props content h1 h2
    refine ⟨p1, p2, p3, p4, p5, fun hnul => ?_⟩
    refine p6 (fun b hb => ?_)
    rcases hmem b hb with h' | h'
    · simp at h'
    · obtain ⟨ch, hch, hbch⟩ := h'
      exact hnul (UEvent.data ch) hch ch rfl b hbch

/-- C9 witness: the command framed from hi LF by the single-terminator framer
has size 3 = strlen + 1, str[2] = 0, and size within bounds. -/
theorem C9_command_size_witness :
    (mkCommand [104, 105]).size = strlen (mkCommand [104, 105]).str + 1 :=
  (C9_command_size.2 [UEvent.data [104, 105, 10]] (mkCommand [104, 105])
      (by decide)).2.2.2.2.2
    (by
      intro ev hev chunk hch b hb
      simp only [List.mem_singleton] at hev
      subst hev
      cases hch
      simp only [List.mem_cons, List.not_mem_nil, or_false] at hb
      rcases hb with rfl | rfl | rfl <;> decide)

end ESPUart
